import Mathlib

/-!
Verification development for the partial-parse completion engine of
`jedi/api/helpers.py` (stemiApp/jedi).

The Python source is shallowly embedded: strings are Lean `String`s
(lists of characters), positions are `(line, column)` pairs of naturals
compared lexicographically as in Python tuple comparison, machine-level
details (dict lookups, list slicing, negative indexing, generators,
exceptions) are made explicit.  Fallible code returns `Option`/`Except`
or a dedicated result type; a raised Python exception is an explicit
error value.
-/

namespace Jedi

/-- A source position `(line, column)`: line is 1-based, column 0-based,
exactly the tuples used by the Python code. -/
abbrev Pos := Nat × Nat

/-- Python tuple comparison `a <= b` on `(line, column)` pairs. -/
def ple (a b : Pos) : Bool :=
  decide (a.1 < b.1) || (decide (a.1 = b.1) && decide (a.2 ≤ b.2))

/-- Python tuple comparison `a < b` on `(line, column)` pairs. -/
def plt (a b : Pos) : Bool :=
  decide (a.1 < b.1) || (decide (a.1 = b.1) && decide (a.2 < b.2))

/-! ## `get_completion_parts` (helpers.py lines 17-24)

The Python function matches `^(.*?)(\.|)(\w?[\w\d]*)$` (with `re.S`)
against the path before the cursor and returns the three groups.  The
regex is embedded by its backtracking semantics: the lazy `(.*?)` group
tries prefix lengths 0, 1, 2, … in order; at each split point the
alternation `(\.|)` tries a literal dot first and the empty string
second, and the trailing `(\w?[\w\d]*)` (equivalent to `\w*`) must run
up to the anchor `$`.  Python's `$` (without `re.M`; `re.S` only
changes `.`) matches at the very end of the input or just before a
newline that is the input's last character, so when the input ends in
a newline the name group stops right before it and the final newline
belongs to no group.  `\w` is modelled as ASCII alphanumeric or
underscore; the properties proved below do not depend on the exact
alphabet, only on `.` and the newline not being word characters. -/

/-- Model of the regex class `\w` (ASCII approximation of Python's
word-character class): letters, digits and underscore. -/
def isWordChar (c : Char) : Bool :=
  c.isAlphanum || c = '_'

/-- The result the Python `CompletionParts` namedtuple carries:
`path`, `has_dot` and `name`. -/
structure CompletionParts where
  path : List Char
  has_dot : Bool
  name : List Char
  deriving DecidableEq

/-- The name group `(\w?[\w\d]*)` followed by `$`, tried on the
segment `u` after the optional dot.  The name starts at the beginning
of `u` and must end at a position where `$` matches: the end of the
input, or just before a newline that is the input's last character.
Word characters exclude the newline, so when `u` ends in `'\n'` the
only reachable anchor is the one before that final newline (the name
is `u.dropLast`); otherwise the name must be all of `u`.  `none` means
no match here. -/
def nameTail (u : List Char) : Option (List Char) :=
  if u.getLast? = some '\n' then
    (if u.dropLast.all isWordChar then some u.dropLast else none)
  else
    (if u.all isWordChar then some u else none)

/-- One attempt of the tail of the regex `(\.|)(\w?[\w\d]*)$` at a given
split point: a leading literal `.` is preferred (first alternative),
otherwise the empty alternative is taken and the name group starts at
the split point itself. `none` means the tail cannot match here and the
lazy prefix must grow. -/
def splitTail (r : List Char) : Option (Bool × List Char) :=
  match r with
  | [] => some (false, [])
  | c :: t =>
    if c = '.' then (nameTail t).map (fun n => (true, n))
    else (nameTail (c :: t)).map (fun n => (false, n))

/-- Backtracking loop of the match: grow the lazy prefix `acc` one
character at a time until the tail matches (it always does at the end of
input, where the empty name matches). -/
def gcpAux : List Char → List Char → CompletionParts
  | acc, [] => ⟨acc, false, []⟩
  | acc, c :: t =>
    match splitTail (c :: t) with
    | some (d, n) => ⟨acc, d, n⟩
    | none => gcpAux (acc ++ [c]) t

/-- Model of `get_completion_parts` (helpers.py line 17): split the path before
the cursor into `(path, has_dot, name)` using the regex
`^(.*?)(\.|)(\w?[\w\d]*)$`. -/
def get_completion_parts (path_until_cursor : List Char) : CompletionParts :=
  gcpAux [] path_until_cursor

/-! ## Token kinds and `tokenize_without_endmarker` (helpers.py lines 110-121)

Token kind numbers follow `jedi.parser.token`, which mirrors CPython's
`token` module: `ENDMARKER = 0`, `DEDENT = 6`. -/

def ENDMARKER : Nat := 0
def DEDENT : Nat := 6

/-- A token produced by the external tokenizer: `(kind, value)`.
Positions play no role in the adapter, so they are omitted. -/
structure Tok where
  typ : Nat
  value : String
  deriving DecidableEq

/-- Model of `tokenize_without_endmarker` (helpers.py line 110), as a function of
the underlying tokenizer's token list: the first component is the list
of tokens the generator yields, the second is `true` exactly when the
generator raises `EndMarkerReached` (it stops at the first `ENDMARKER`
instead of yielding it); `DEDENT` tokens are silently dropped. -/
def tokenize_without_endmarker : List Tok → List Tok × Bool
  | [] => ([], false)
  | t :: rest =>
    if t.typ = ENDMARKER then ([], true)
    else if t.typ = DEDENT then tokenize_without_endmarker rest
    else
      let r := tokenize_without_endmarker rest
      (t :: r.1, r.2)

/-! ## The partial-parse driver (helpers.py lines 123-127)

`get_stack_at_position` builds `parser.Parser(grammar, code,
start_parsing=False)` and runs `p.parse(tokenizer=...)` inside
`try: ... except EndMarkerReached: return Stack(p.pgen_parser.stack)`.
Only `EndMarkerReached` is caught; everything else propagates. -/

/-- A frame of the pushdown automaton's stack is kept abstract for the
driver model; the resolver below uses the concrete `StackFrame`. -/
inductive ParseOutcome (σ : Type) where
  /-- The tokenizer adapter raised `EndMarkerReached`; the parser's
  stack at that instant is attached. -/
  | endMarkerReached (stack : σ)
  /-- The token stream was exhausted without the sentinel firing. -/
  | endOfInputNotReached
  deriving DecidableEq

/-- Modelled from the spec: `jedi.parser.Parser.parse` is not under
`src/` (only its caller is).  Per §4.2 and §7 of the spec the partial
parse has exactly two outcomes: the adapter's `EndMarkerReached`
sentinel fires (the real end of input is reached) and the automaton's
stack is captured, or the snippet was not properly truncated, the
sentinel never fires, and the parse fails with `EndOfInputNotReached`.
The automaton stack at suspension is passed in abstractly as
`pstack`. -/
def parse {σ : Type} (adapted : List Tok × Bool) (pstack : σ) : ParseOutcome σ :=
  if adapted.2 then .endMarkerReached pstack else .endOfInputNotReached

/-- The driver kernel of `get_stack_at_position` (helpers.py lines
123-127): run the parser on the adapted token stream, catch
`EndMarkerReached` and turn it into the returned stack snapshot; any
other outcome propagates to the caller as an error. -/
def get_stack_at_position {σ : Type} (tokens : List Tok) (pstack : σ) :
    Except String σ :=
  match parse (tokenize_without_endmarker tokens) pstack with
  | .endMarkerReached s => .ok s
  | .endOfInputNotReached => .error "EndOfInputNotReached"

/-! ## The grammar table and `get_possible_completion_types`
(helpers.py lines 141-178)

The pgen grammar table (external, immutable): `labels` is the ordered
list of arc labels `(terminal-or-nonterminal-id, optional value)`;
`keywords` maps keyword strings to label indices, `tokens` maps token
kinds to label indices; `dfas` maps nonterminal ids (≥ 256) to
`(states, first)` where `states` is the list of arc lists (an arc is
`(label_index, next_state)`) and `first` is the precomputed FIRST set,
a Python dict whose keys are iterated in insertion order (modelled as
the list of those keys). -/

structure DFA where
  states : List (List (Nat × Nat))
  first : List Nat
  deriving DecidableEq

structure Grammar where
  labels : List (Nat × Option String)
  keywords : List (String × Nat)
  tokens : List (Nat × Nat)
  dfas : List (Nat × DFA)
  deriving DecidableEq

/-- A frame of the captured parse stack: `(dfa, state, node)` in the
Python tuple; the `node` component is never read by the resolver, so it
is omitted. -/
structure StackFrame where
  dfa : DFA
  state : Nat
  deriving DecidableEq

/-- Lookup in the inverted dict `dict((v, k) for k, v in m.items())`:
when several keys share a value the last insertion wins, hence the
reversed search. -/
def lookupInv {α : Type} (m : List (α × Nat)) (li : Nat) : Option α :=
  (m.reverse.find? (fun p => p.2 == li)).map (·.1)

/-- Python dict lookup `grammar.dfas[t]`. -/
def lookupDfa (dfas : List (Nat × DFA)) (t : Nat) : Option DFA :=
  (dfas.find? (fun p => p.1 == t)).map (·.2)

/-- The mutable state of one `get_possible_completion_types` call: the
`keywords` and `grammar_labels` accumulator lists, plus `expanded`, the
instrumentation trace of nonterminal ids whose FIRST set was expanded
by `add_results` (in expansion order). -/
structure CompState where
  keywords : List String
  grammar_labels : List Nat
  expanded : List Nat
  deriving DecidableEq

/-- Result of running the resolver: a normal return, a raised Python
exception (with the exception's description), or `timeout`, the
fuel-exhaustion marker that stands for non-termination of the
unguarded Python recursion. -/
inductive CRes where
  | ok (st : CompState)
  | err (msg : String)
  | timeout
  deriving DecidableEq

/-- The `for first_label_index in itsfirst.keys(): add_results(...)`
loop, sequencing a recursive `add_results` call (passed in as `rec`)
over the FIRST-set keys; an exception from any call aborts the loop. -/
def addResultsList (rec : CompState → Nat → CRes) :
    CompState → List Nat → CRes
  | st, [] => .ok st
  | st, li :: rest =>
    match rec st li with
    | .ok st2 => addResultsList rec st2 rest
    | r => r

/-- Model of `add_results` (helpers.py lines 142-156): try the inverted token
table, then the inverted keyword table; otherwise the label must name a
nonterminal (`assert t >= 256`), whose FIRST-set keys are expanded
recursively — with no visited set.  `fuel` only decreases at an
expansion step; running out of fuel (`timeout`) models the infinite
recursion the Python code would perform on a cyclic table. -/
def addResults (g : Grammar) : Nat → CompState → Nat → CRes
  | fuel, st, labelIndex =>
    match lookupInv g.tokens labelIndex with
    | some tk => .ok {st with grammar_labels := st.grammar_labels ++ [tk]}
    | none =>
      match lookupInv g.keywords labelIndex with
      | some kw => .ok {st with keywords := st.keywords ++ [kw]}
      | none =>
        match fuel with
        | 0 => .timeout
        | f + 1 =>
          match g.labels[labelIndex]? with
          | none => .err "IndexError: labels"
          | some (t, _) =>
            if t < 256 then .err "AssertionError"
            else
              match lookupDfa g.dfas t with
              | none => .err "KeyError: dfas"
              | some d =>
                addResultsList (addResults g f)
                  {st with expanded := st.expanded ++ [t]} d.first

/-- The `for label_index, new_state in arcs:` loop of `scan_stack`:
label index `0` scans the next frame down the stack (the `below`
continuation), every other label goes to `add_results` (`addR`); an
exception from either aborts the loop. -/
def scanArcs (below : CompState → CRes) (addR : CompState → Nat → CRes) :
    CompState → List (Nat × Nat) → CRes
  | st, [] => .ok st
  | st, (labelIndex, _) :: rest =>
    if labelIndex = 0 then
      match below st with
      | .ok st2 => scanArcs below addR st2 rest
      | r => r
    else
      match addR st labelIndex with
      | .ok st2 => scanArcs below addR st2 rest
      | r => r

/-- One frame step of `scan_stack`: look up `dfa, state, node =
stack[index]` and `arcs = states[state]` (each raising `IndexError`
when out of range) and run the arc loop. -/
def scanFrame (stack : List StackFrame) (idx : Nat)
    (below : CompState → CRes) (addR : CompState → Nat → CRes)
    (st : CompState) : CRes :=
  match stack[idx]? with
  | none => .err "IndexError: stack"
  | some fr =>
    match fr.dfa.states[fr.state]? with
    | none => .err "IndexError: states"
    | some arcs => scanArcs below addR st arcs

/-- Model of `scan_stack` (helpers.py lines 164-176).  Python indexes the stack
with negative indices starting at `-1`; `idx` is the corresponding
non-negative list index (`-1` is `stack.length - 1`, and `scan_stack
(index - 1)` is `idx - 1`).  At `idx = 0` stepping further down is
`stack[-len(stack)-1]`, a raised `IndexError`. -/
def scanStack (g : Grammar) (stack : List StackFrame) (fuel : Nat) :
    Nat → CompState → CRes
  | 0, st =>
    scanFrame stack 0 (fun _ => .err "IndexError: scan below stack bottom")
      (addResults g fuel) st
  | j + 1, st =>
    scanFrame stack (j + 1) (scanStack g stack fuel j) (addResults g fuel) st

/-- Model of `get_possible_completion_types` (helpers.py line 141): scan the
stack starting from its top frame (`scan_stack(-1)`, i.e. list index
`stack.length - 1`; on an empty stack the frame lookup raises
`IndexError`, exactly as Python's `stack[-1]` would). -/
def get_possible_completion_types (g : Grammar) (stack : List StackFrame)
    (fuel : Nat) : CRes :=
  scanStack g stack fuel (stack.length - 1) ⟨[], [], []⟩

/-- Acyclicity of the grammar's label→nonterminal→label FIRST-set
expansion: a rank function that strictly decreases along every possible
expansion edge (from a label that resolves to a nonterminal to each
label in that nonterminal's FIRST set). -/
def RankOK (g : Grammar) (rank : Nat → Nat) : Prop :=
  ∀ li t v d, lookupInv g.tokens li = none → lookupInv g.keywords li = none →
    g.labels[li]? = some (t, v) → lookupDfa g.dfas t = some d →
    ∀ li2 ∈ d.first, rank li2 < rank li

/-! ## `importer_from_error_statement` (helpers.py lines 181-214)

The retained error-statement stack is a list of
`(rule_type_name, matched_children)` pairs.  Children are parse-tree
nodes of `jedi.parser.tree`: `Name` leaves, `Keyword` leaves, `Operator`
leaves, and inner `Node`s with a type name and children.  `tree.py` is
not under `src/`; the equality used by `node in ('.', '...')` and
`node == 'import'` is modelled from the spec and from the evident usage:
operator and keyword leaves compare equal to their value string, `Name`
leaves and inner nodes never compare equal to a string, and `Keyword` is
not a `Name`. -/

inductive PNode where
  /-- A `pt.Name` leaf. -/
  | name (value : String) (startPos endPos : Pos)
  /-- A `pt.Keyword` leaf (e.g. `from`, `import`). -/
  | keyword (value : String) (startPos endPos : Pos)
  /-- A `pt.Operator` leaf (e.g. `.`, `...`). -/
  | op (value : String) (startPos endPos : Pos)
  /-- An inner `pt.Node` with a rule-type name and children. -/
  | node (typ : String) (children : List PNode) (startPos endPos : Pos)

/-- Python `node.start_pos`. -/
def PNode.start : PNode → Pos
  | .name _ s _ => s
  | .keyword _ s _ => s
  | .op _ s _ => s
  | .node _ _ s _ => s

/-- Python `node.end_pos`. -/
def PNode.stop : PNode → Pos
  | .name _ _ e => e
  | .keyword _ _ e => e
  | .op _ _ e => e
  | .node _ _ _ e => e

/-- Python `node.value` of a leaf (inner nodes have no value). -/
def PNode.value : PNode → String
  | .name v _ _ => v
  | .keyword v _ _ => v
  | .op v _ _ => v
  | .node _ _ _ _ => ""

/-- Python `node == s` for a string `s`: operator and keyword leaves
compare by value, names and inner nodes do not. -/
def PNode.strEq : PNode → String → Bool
  | .name _ _ _, _ => false
  | .keyword v _ _, s => v == s
  | .op v _ _, s => v == s
  | .node _ _ _ _, _ => false

/-- Python `isinstance(node, pt.Name)`. -/
def PNode.isName : PNode → Bool
  | .name _ _ _ => true
  | _ => false

/-- Python `isinstance(node, pt.Node) and node.type == 'dotted_name'`. -/
def PNode.isDottedNameNode : PNode → Bool
  | .node t _ _ _ => t == "dotted_name"
  | _ => false

/-- Python `node.children` of an inner node (leaves have none). -/
def PNode.childList : PNode → List PNode
  | .node _ cs _ _ => cs
  | _ => []

/-- Python `children[::2]`: the children at even positions. -/
def everySecond {α : Type} : List α → List α
  | [] => []
  | [a] => [a]
  | a :: _ :: rest => a :: everySecond rest

/-- Model of `check_dotted` (helpers.py lines 182-185): the children at even
positions whose start position is at or before `pos`, in order. -/
def check_dotted (pos : Pos) (children : List PNode) : List PNode :=
  (everySecond children).filter (fun n => ple n.start pos)

/-- The `for node in nodes:` loop of the `import_from` branch
(helpers.py lines 202-212): scan children in order, breaking at the
first whose start position is at or after `pos`; returns the collected
names, the accumulated relative-import level, and whether the literal
`import` keyword was consumed. -/
def scanImportFrom (pos : Pos) : List PNode → List PNode × Nat × Bool
  | [] => ([], 0, false)
  | n :: rest =>
    if ple pos n.start then ([], 0, false)
    else
      let r := scanImportFrom pos rest
      if n.isDottedNameNode then (check_dotted pos n.childList ++ r.1, r.2.1, r.2.2)
      else if n.strEq "." || n.strEq "..." then (r.1, n.value.length + r.2.1, r.2.2)
      else if n.isName then (n :: r.1, r.2.1, r.2.2)
      else if n.strEq "import" then (r.1, r.2.1, true)
      else r

/-- The tuple `importer_from_error_statement` returns: `names` is
`none` for the `return None, 0, False, False` short circuit and
`some l` for a normal return. -/
structure ImportCtx where
  names : Option (List PNode)
  level : Nat
  only_modules : Bool
  unfinished_dotted : Bool

/-- The `for typ, nodes in error_statement.stack:` loop of
`importer_from_error_statement` (helpers.py lines 191-212), threading
the four accumulators.  The whole call returns `none` when Python would
raise `IndexError` (`nodes[-1]` or `nodes[0]` on empty children). -/
def importerLoop (pos : Pos) (names : List PNode) (level : Nat)
    (only_modules unfinished_dotted : Bool) :
    List (String × List PNode) → Option ImportCtx
  | [] => some ⟨some names, level, only_modules, unfinished_dotted⟩
  | (typ, nodes) :: rest =>
    if typ = "dotted_name" then
      match nodes.getLast? with
      | none => none
      | some last =>
        importerLoop pos (names ++ check_dotted pos nodes) level only_modules
          (unfinished_dotted || last.strEq ".") rest
    else if typ = "import_name" then
      match nodes.head? with
      | none => none
      | some first =>
        if ple first.start pos && ple pos first.stop then
          some ⟨none, 0, false, false⟩
        else
          importerLoop pos names level only_modules unfinished_dotted rest
    else if typ = "import_from" then
      let r := scanImportFrom pos nodes
      importerLoop pos (names ++ r.1) (level + r.2.1)
        (if r.2.2 then false else only_modules) unfinished_dotted rest
    else
      importerLoop pos names level only_modules unfinished_dotted rest

/-- Model of `importer_from_error_statement` (helpers.py line 181), as a function
of the error statement's retained `(rule_type, children)` stack and the
cursor position. -/
def importer_from_error_statement (stack : List (String × List PNode))
    (pos : Pos) : Option ImportCtx :=
  importerLoop pos [] 0 true false stack

/-! ## The snippet fed to the partial parser
(`_get_code`, helpers.py lines 53-64, and `get_stack_at_position`
lines 97-105) -/

/-- A tab or space, the characters of Python's `strip('\t ')`. -/
def isTabSpace (c : Char) : Bool :=
  c = '\t' || c = ' '

/-- Remove leading tab/space characters. -/
def lstripTS (s : String) : String :=
  ⟨s.data.dropWhile isTabSpace⟩

/-- Remove trailing tab/space characters. -/
def rstripTS (s : String) : String :=
  ⟨(s.data.reverse.dropWhile isTabSpace).reverse⟩

/-- Python `code.strip('\t ')`: removes tabs and spaces from both
ends. -/
def stripTS (s : String) : String :=
  rstripTS (lstripTS s)

/-- Structural line splitter on character lists: splits at every
newline, yielding `[[]]` for the empty input. -/
def splitlinesAux : List Char → List (List Char)
  | [] => [[]]
  | c :: t =>
    match splitlinesAux t with
    | [] => [[]]
    | l :: ls => if c = '\n' then [] :: l :: ls else (c :: l) :: ls

/-- Modelled from the spec: `jedi.common.splitlines` is not under
`src/`.  It splits the source into lines (yielding `[""]` for the empty
string); line separators are modelled as `\n`. -/
def splitlines (s : String) : List String :=
  (splitlinesAux s.data).map (fun l => ⟨l⟩)

/-- Python string slicing `s[:n]` (by characters). -/
def strTake (s : String) (n : Nat) : String :=
  ⟨s.data.take n⟩

/-- Python string slicing `s[n:]` (by characters). -/
def strDrop (s : String) (n : Nat) : String :=
  ⟨s.data.drop n⟩

/-- Python `'\n'.join(lines)`. -/
def joinLines (lines : List String) : String :=
  ⟨List.intercalate ['\n'] (lines.map String.data)⟩

/-- Model of `_get_code` (helpers.py lines 53-64): keep the lines from
`start_pos` to `end_pos`, cut the last line at the end column, cut the
first line at the start column, and rejoin.  Python raises `IndexError`
(modelled `none`) when the line slice is empty. -/
def _get_code (code : String) (start_pos end_pos : Pos) : Option String :=
  if end_pos.1 < start_pos.1 then none
  else
    let lines := (splitlines code).drop (start_pos.1 - 1)
      |>.take (end_pos.1 - start_pos.1 + 1)
    match lines with
    | [] => none
    | _ =>
      let lines := lines.dropLast ++ [strTake (lines.getLastD "") end_pos.2]
      match lines with
      | [] => none
      | l0 :: ls => some (joinLines (strDrop l0 start_pos.2 :: ls))

/-- Lines 97-105 of `get_stack_at_position`: slice the source from the
statement start to the cursor, replace an exact `";"` slice by the
empty snippet, then `strip('\t ')` the result. -/
def snippetOfSlice (s : String) : String :=
  stripTS (if s = ";" then "" else s)

/-- The snippet fed to the partial parser, as computed by
`get_stack_at_position` lines 97-105 from the source, the enclosing
statement's start position and the cursor position. -/
def computeCode (source : String) (start_pos pos : Pos) : Option String :=
  (_get_code source start_pos pos).map snippetOfSlice

/-! ## Concrete inputs used by the counterexamples and witnesses -/

/-- The `.`/`...` test of the `import_from` scan (`node in ('.', '...')`). -/
def isDotTok (n : PNode) : Bool :=
  n.strEq "." || n.strEq "..."

/-- A small, acyclic grammar table: label 1 is nonterminal 256 with
FIRST keys `[2, 3]`; labels 2 and 3 are nonterminals 257 and 258, both
with FIRST key `[5]`; label 5 is nonterminal 259 with FIRST key `[4]`;
label 4 is the label of token kind 1. -/
def gEx : Grammar where
  labels := [(0, none), (256, none), (257, none), (258, none), (1, none), (259, none)]
  keywords := []
  tokens := [(1, 4)]
  dfas := [(256, ⟨[[]], [2, 3]⟩), (257, ⟨[[]], [5]⟩), (258, ⟨[[]], [5]⟩),
    (259, ⟨[[]], [4]⟩)]

/-- A rank function witnessing that `gEx`'s FIRST expansion is acyclic. -/
def rankEx (li : Nat) : Nat :=
  if li = 1 then 3 else if li = 2 then 2 else if li = 3 then 2 else
    if li = 5 then 1 else 0

/-- A one-frame stack whose state has the single non-accepting arc
labelled 1 (the nonterminal whose FIRST set is a DAG, not a tree). -/
def stackEx : List StackFrame :=
  [⟨⟨[[(1, 0)]], []⟩, 0⟩]

/-- A one-frame stack whose only frame is accepting (its state has an
arc with label index 0). -/
def stackAcc : List StackFrame :=
  [⟨⟨[[(0, 0)]], []⟩, 0⟩]

/-- A two-frame stack: the top frame is accepting, the bottom frame is
non-accepting (its only arc is labelled 4, the token label of `gEx`). -/
def stackStop : List StackFrame :=
  [⟨⟨[[(4, 0)]], []⟩, 0⟩, ⟨⟨[[(0, 0)]], []⟩, 0⟩]

/-- The `from` keyword of the partial statement `from ...`. -/
def kwFrom : PNode := .keyword "from" (1, 0) (1, 4)

/-- The `...` operator token of `from ...`. -/
def opDots : PNode := .op "..." (1, 5) (1, 8)

/-- The error-statement stack of `from ...`. -/
def fromDotsStack : List (String × List PNode) :=
  [("import_from", [kwFrom, opDots])]

/-- The `import` keyword of the partial statement `import os.`. -/
def kwImport : PNode := .keyword "import" (1, 0) (1, 6)

/-- The name `os` of `import os.`. -/
def nmOs : PNode := .name "os" (1, 7) (1, 9)

/-- The trailing `.` of `import os.`. -/
def opDot : PNode := .op "." (1, 9) (1, 10)

/-- The error-statement stack of `import os.`. -/
def importOsStack : List (String × List PNode) :=
  [("import_name", [kwImport]), ("dotted_name", [nmOs, opDot])]

/-- The name `a` of the partial statement `from a.b` (cursor at column
7, right before `b`). -/
def nmA : PNode := .name "a" (1, 5) (1, 6)

/-- The `.` between `a` and `b`. -/
def opAB : PNode := .op "." (1, 6) (1, 7)

/-- The name `b`, starting exactly at the cursor position `(1, 7)`. -/
def nmB : PNode := .name "b" (1, 7) (1, 8)

/-- The `dotted_name` node `a.b`. -/
def dnAB : PNode := .node "dotted_name" [nmA, opAB, nmB] (1, 5) (1, 8)

/-- The error-statement stack of `from a.b`. -/
def nestedDotStack : List (String × List PNode) :=
  [("import_from", [kwFrom, dnAB])]

/-! # Theorems -/

/-- A successful name-group match spans the segment it was tried on up
to the matching `$` position: the segment itself, or the segment minus
its final newline when it ends in one; and the name is all word
characters. -/
lemma nameTail_spec (u : List Char) (n : List Char) (h : nameTail u = some n) :
    n ++ (if u.getLast? = some '\n' then ['\n'] else []) = u
    ∧ n.all isWordChar = true := by
  unfold nameTail at h
  by_cases hnl : u.getLast? = some '\n'
  · rw [if_pos hnl] at h
    by_cases hall : u.dropLast.all isWordChar
    · rw [if_pos hall] at h
      simp only [Option.some.injEq] at h
      subst h
      rw [if_pos hnl]
      refine ⟨?_, hall⟩
      rcases List.eq_nil_or_concat u with rfl | ⟨l2, a, rfl⟩
      · simp at hnl
      · simp only [List.concat_eq_append] at hnl ⊢
        rw [List.getLast?_concat] at hnl
        simp only [Option.some.injEq] at hnl
        subst hnl
        rw [List.dropLast_concat]
    · rw [if_neg hall] at h
      exact absurd h (by simp)
  · rw [if_neg hnl] at h
    by_cases hall : u.all isWordChar
    · rw [if_pos hall] at h
      simp only [Option.some.injEq] at h
      subst h
      rw [if_neg hnl]
      simp [hall]
    · rw [if_neg hall] at h
      exact absurd h (by simp)

/-- A successful tail match reassembles — dot, name, and the final
newline the anchor skipped, if any — to the remainder it was tried on,
and its name group is all word characters. -/
lemma splitTail_spec (r : List Char) (d : Bool) (n : List Char)
    (h : splitTail r = some (d, n)) :
    (if d then '.' :: n else n) ++ (if r.getLast? = some '\n' then ['\n'] else [])
      = r
    ∧ n.all isWordChar = true := by
  cases r with
  | nil =>
    simp only [splitTail, Option.some.injEq, Prod.mk.injEq] at h
    obtain ⟨hd, hn⟩ := h
    subst hd; subst hn
    simp
  | cons c t =>
    simp only [splitTail] at h
    by_cases hc : c = '.'
    · rw [if_pos hc] at h
      cases hnt : nameTail t with
      | none => rw [hnt] at h; exact absurd h (by simp)
      | some n0 =>
        rw [hnt] at h
        simp only [Option.map_some', Option.some.injEq, Prod.mk.injEq] at h
        obtain ⟨hd, hn⟩ := h
        subst hd; subst hn
        have hs := nameTail_spec t n0 hnt
        refine ⟨?_, hs.2⟩
        subst hc
        cases t with
        | nil =>
          simp only [nameTail, List.getLast?_nil, List.all_nil] at hnt
          simp only [reduceCtorEq, if_false, if_pos, if_true, Option.some.injEq] at hnt
          subst hnt
          decide
        | cons b t2 =>
          rw [List.getLast?_cons_cons]
          have h1 := hs.1
          simp only [if_true]
          exact congrArg (fun l => '.' :: l) h1
    · rw [if_neg hc] at h
      cases hnt : nameTail (c :: t) with
      | none => rw [hnt] at h; exact absurd h (by simp)
      | some n0 =>
        rw [hnt] at h
        simp only [Option.map_some', Option.some.injEq, Prod.mk.injEq] at h
        obtain ⟨hd, hn⟩ := h
        subst hd; subst hn
        have hs := nameTail_spec (c :: t) n0 hnt
        exact ⟨by simpa using hs.1, hs.2⟩

/-- When the tail fails at a split point, pushing the head character
into the lazy prefix commutes with removing the input's final newline:
the head cannot itself be the final newline (a lone newline remainder
always matches with an empty name). -/
lemma dropNL_cons (c : Char) (t : List Char) (h : splitTail (c :: t) = none) :
    (if (c :: t).getLast? = some '\n' then (c :: t).dropLast else c :: t)
      = c :: (if t.getLast? = some '\n' then t.dropLast else t) := by
  cases t with
  | nil =>
    have hc : ¬(c = '\n') := by
      intro hcc
      subst hcc
      simp [splitTail, nameTail] at h
    simp [hc]
  | cons b t2 =>
    rw [List.getLast?_cons_cons]
    by_cases hnl : (b :: t2).getLast? = some '\n'
    · simp [hnl, List.dropLast]
    · simp [hnl]

/-- Invariant of the backtracking loop: the three groups reassemble to
the accumulated prefix plus the remainder, minus the remainder's final
newline when it ends in one (which `$` matches before and no group
captures); and the name group is all word characters. -/
lemma gcpAux_spec : ∀ (r acc : List Char),
    (gcpAux acc r).path ++ (if (gcpAux acc r).has_dot then ['.'] else []) ++
        (gcpAux acc r).name
      = acc ++ (if r.getLast? = some '\n' then r.dropLast else r)
    ∧ (gcpAux acc r).name.all isWordChar = true := by
  intro r
  induction r with
  | nil => intro acc; simp [gcpAux]
  | cons c t ih =>
    intro acc
    cases h : splitTail (c :: t) with
    | none =>
      simp only [gcpAux, h]
      have h2 := ih (acc ++ [c])
      rw [dropNL_cons c t h]
      simpa [List.append_assoc] using h2
    | some p =>
      obtain ⟨d, n⟩ := p
      simp only [gcpAux, h]
      have hs := splitTail_spec _ _ _ h
      refine ⟨?_, hs.2⟩
      by_cases hnl : (c :: t).getLast? = some '\n'
      · rw [if_pos hnl]
        have h1 := hs.1
        rw [if_pos hnl] at h1
        have hmatched : (if d then '.' :: n else n) = (c :: t).dropLast := by
          have h2 := congrArg List.dropLast h1
          simpa [List.dropLast_concat] using h2
        rw [← hmatched]
        cases d <;> simp
      · rw [if_neg hnl]
        have h1 := hs.1
        rw [if_neg hnl] at h1
        simp only [List.append_nil] at h1
        rw [← h1]
        cases d <;> simp

/-- A list of word characters contains no dot. -/
lemma all_word_no_dot (n : List Char) (h : n.all isWordChar = true) :
    n.contains '.' = false := by
  induction n with
  | nil => rfl
  | cons c m ih =>
    simp only [List.all_cons, Bool.and_eq_true] at h
    have hc : ¬(c = '.') := by
      intro hcc
      subst hcc
      exact absurd h.1 (by decide)
    have h2 := ih h.2
    simp only [List.contains_cons, Bool.or_eq_false_iff]
    exact ⟨beq_eq_false_iff_ne.mpr (fun hh => hc hh.symm), h2⟩

/-- C10 fails on the code as stated: Python's `$` also matches just
before a trailing newline, so on the input `"abc\n"` the match
succeeds with groups `("", "", "abc")` and the reassembled triple is
`"abc"`, not the original input — the round trip loses the final
newline. -/
theorem c10_trailing_newline_counterexample :
    (get_completion_parts ['a', 'b', 'c', '\n']).path ++
        (if (get_completion_parts ['a', 'b', 'c', '\n']).has_dot then ['.']
          else []) ++
        (get_completion_parts ['a', 'b', 'c', '\n']).name = ['a', 'b', 'c']
    ∧ (['a', 'b', 'c'] : List Char) ≠ ['a', 'b', 'c', '\n'] := by
  exact ⟨rfl, by decide⟩

/-- C10 (amended): `get_completion_parts` is total (the embedded regex
match succeeds on every input, as the Lean function is total) and
splits losslessly up to the anchor's trailing-newline rule: path, an
optional dot (present exactly when `has_dot`), and name reassemble to
the input with its final newline removed when it ends in one (and to
the input itself otherwise), and the name is a possibly-empty trailing
run of word characters containing no dot. -/
theorem c10_completion_parts_roundtrip (s : List Char) :
    (get_completion_parts s).path ++
        (if (get_completion_parts s).has_dot then ['.'] else []) ++
        (get_completion_parts s).name
      = (if s.getLast? = some '\n' then s.dropLast else s)
    ∧ (get_completion_parts s).name.all isWordChar = true
    ∧ (get_completion_parts s).name.contains '.' = false := by
  have h := gcpAux_spec s []
  exact ⟨by simpa using h.1, h.2, all_word_no_dot _ h.2⟩

/-- The adapter raises the `EndMarkerReached` sentinel exactly when the
underlying token list contains an `ENDMARKER`. -/
lemma twe_sentinel (ts : List Tok) :
    (tokenize_without_endmarker ts).2 = ts.any (fun t => t.typ == ENDMARKER) := by
  induction ts with
  | nil => rfl
  | cons t rest ih =>
    simp only [tokenize_without_endmarker]
    by_cases h1 : t.typ = ENDMARKER
    · simp [h1]
    · by_cases h2 : t.typ = DEDENT
      · simp [h1, h2, ih, DEDENT, ENDMARKER]
      · simp [h1, h2, ih]

/-- C5: `tokenize_without_endmarker` yields exactly the underlying
tokenizer's tokens in order up to (and excluding) the first
`ENDMARKER`, with every `DEDENT` dropped; it never yields an
`ENDMARKER` or a `DEDENT`; and it raises the `EndMarkerReached`
sentinel exactly when an `ENDMARKER` occurs. -/
theorem c5_adapter_filters (ts : List Tok) :
    (tokenize_without_endmarker ts).1 =
      (ts.takeWhile (fun t => !(t.typ == ENDMARKER))).filter
        (fun t => !(t.typ == DEDENT))
    ∧ (tokenize_without_endmarker ts).1.all
        (fun t => !(t.typ == ENDMARKER) && !(t.typ == DEDENT)) = true
    ∧ (tokenize_without_endmarker ts).2 = ts.any (fun t => t.typ == ENDMARKER) := by
  refine ⟨?_, ?_, twe_sentinel ts⟩
  · induction ts with
    | nil => rfl
    | cons t rest ih =>
      simp only [tokenize_without_endmarker]
      by_cases h1 : t.typ = ENDMARKER
      · simp [h1]
      · by_cases h2 : t.typ = DEDENT
        · simp [h1, h2, ih, DEDENT, ENDMARKER]
        · simp [h1, h2, ih]
  · induction ts with
    | nil => rfl
    | cons t rest ih =>
      simp only [tokenize_without_endmarker]
      by_cases h1 : t.typ = ENDMARKER
      · simp [h1]
      · by_cases h2 : t.typ = DEDENT
        · simpa [h1, h2, DEDENT, ENDMARKER] using ih
        · simp [h1, h2, ih]

/-- C2: the partial-parse driver converts the `EndMarkerReached`
sentinel (which fires exactly when the adapted stream contains an
`ENDMARKER`) into a successfully returned stack snapshot, and when the
sentinel never fires it fails with the propagated `EndOfInputNotReached`
error — there is no third, silent outcome. -/
theorem c2_driver_outcomes {σ : Type} (ts : List Tok) (pstack : σ) :
    get_stack_at_position ts pstack =
      if ts.any (fun t => t.typ == ENDMARKER) then Except.ok pstack
      else Except.error "EndOfInputNotReached" := by
  unfold get_stack_at_position parse
  rw [twe_sentinel]
  by_cases h : ts.any (fun t => t.typ == ENDMARKER) <;> simp [h]

/-- Totality of the position order: if `a <= b` fails then `b <= a`. -/
lemma ple_of_not_ple {a b : Pos} (h : ple a b = false) : ple b a = true := by
  obtain ⟨l1, c1⟩ := a
  obtain ⟨l2, c2⟩ := b
  simp only [ple, Bool.or_eq_false_iff, Bool.or_eq_true, Bool.and_eq_false_iff,
    Bool.and_eq_true, decide_eq_false_iff_not, decide_eq_true_eq] at *
  omega

/-- A `dotted_name` inner node is not a dot token. -/
lemma isDotTok_of_dotted {n : PNode} (h : n.isDottedNameNode = true) :
    isDotTok n = false := by
  cases n <;> simp_all [PNode.isDottedNameNode, isDotTok, PNode.strEq]

/-- A `Name` leaf is not a dot token. -/
lemma isDotTok_of_isName {n : PNode} (h : n.isName = true) :
    isDotTok n = false := by
  cases n <;> simp_all [PNode.isName, isDotTok, PNode.strEq]

/-- A dot token's value is the string `.` or the string `...`. -/
lemma value_of_isDotTok {n : PNode} (h : isDotTok n = true) :
    ((n.value == ".") || (n.value == "...")) = true := by
  cases n <;> simp_all [isDotTok, PNode.strEq, PNode.value]

/-- Filtering by a predicate leaves only elements satisfying it. -/
lemma all_of_filter_self {α : Type} (p : α → Bool) (l : List α) :
    (l.filter p).all p = true :=
  List.all_eq_true.mpr (fun _ hx => List.of_mem_filter hx)

/-- C6: in the `import_from` scan the accumulated relative-import level
is the sum of the lengths of the dot tokens consumed before the cursor,
each such token being a literal `.` (contributing 1) or `...`
(contributing 3); and on the error statement of `from ...` with the
cursor right after the dots the resolver returns `level = 3`,
`names = []`, `unfinished_dotted = false`. -/
theorem c6_level_counts_dots :
    (∀ (pos : Pos) (nodes : List PNode),
      (scanImportFrom pos nodes).2.1 =
        (((nodes.takeWhile (fun n => !(ple pos n.start))).filter isDotTok).map
          (fun n => n.value.length)).sum
      ∧ ((nodes.takeWhile (fun n => !(ple pos n.start))).filter isDotTok).all
          (fun n => (n.value == ".") || (n.value == "...")) = true)
    ∧ importer_from_error_statement fromDotsStack (1, 8) =
        some ⟨some [], 3, true, false⟩ := by
  constructor
  · intro pos nodes
    refine ⟨?_, ?_⟩
    · induction nodes with
      | nil => simp [scanImportFrom]
      | cons n rest ih =>
        by_cases hb : ple pos n.start
        · simp [scanImportFrom, hb]
        · by_cases h1 : n.isDottedNameNode
          · simp [scanImportFrom, hb, h1, ih, isDotTok_of_dotted h1]
          · by_cases h2 : (n.strEq "." || n.strEq "...") = true
            · have hdot : isDotTok n = true := h2
              simp [scanImportFrom, hb, h1, h2, ih, isDotTok, hdot]
            · have hdot : isDotTok n = false := by
                simpa [isDotTok] using h2
              by_cases h3 : n.isName
              · simp [scanImportFrom, hb, h1, h2, h3, ih, hdot]
              · by_cases h4 : n.strEq "import"
                · simp [scanImportFrom, hb, h1, h2, h3, h4, ih, hdot]
                · simp [scanImportFrom, hb, h1, h2, h3, h4, ih, hdot]
    · exact List.all_eq_true.mpr
        (fun n hn => value_of_isDotTok (List.of_mem_filter hn))
  · rfl

/-- Python's `l[::2]` is the list of elements at even indices. -/
lemma everySecond_enumFrom {α : Type} :
    ∀ (l : List α) (k : Nat),
      ((List.enumFrom (2 * k) l).filter (fun p => p.1 % 2 == 0)).map Prod.snd =
        everySecond l := by
  intro l
  induction l using everySecond.induct with
  | case1 => intro k; rfl
  | case2 a => intro k; simp [everySecond, List.enumFrom, Nat.mul_mod_right]
  | case3 a b rest ih =>
    intro k
    have hodd : ((2 * k + 1) % 2 == 0) = false := by
      have h1 : (2 * k + 1) % 2 = 1 := by omega
      simp [h1]
    have heven : ((2 * k) % 2 == 0) = true := by
      simp [Nat.mul_mod_right]
    have hstep : 2 * k + 1 + 1 = 2 * (k + 1) := by omega
    simp [List.enumFrom, List.filter_cons, hodd, heven, hstep, everySecond,
      ih (k + 1)]

/-- Expressing `everySecond` via `List.enum`: the even-index elements. -/
lemma everySecond_eq_enum {α : Type} (l : List α) :
    everySecond l = (l.enum.filter (fun p => p.1 % 2 == 0)).map Prod.snd := by
  have h := everySecond_enumFrom l 0
  simpa [List.enum] using h.symm

/-- C7: for a `dotted_name` fragment the resolver collects exactly the
children at even positions whose start position is at or before the
cursor, and reports a trailing dot exactly when the fragment's last
matched child is a literal `.`; and on the error statement of
`import os.` with the cursor at the end it returns
`names = [Name "os"]`, `unfinished_dotted = true`. -/
theorem c7_dotted_name_collection :
    (∀ (nodes : List PNode) (pos : Pos) (last : PNode),
      nodes.getLast? = some last →
      importer_from_error_statement [("dotted_name", nodes)] pos =
        some ⟨some (((nodes.enum.filter (fun p => p.1 % 2 == 0)).map Prod.snd).filter
          (fun n => ple n.start pos)), 0, true, last.strEq "."⟩)
    ∧ importer_from_error_statement importOsStack (1, 10) =
        some ⟨some [nmOs], 0, true, true⟩ := by
  constructor
  · intro nodes pos last hlast
    simp [importer_from_error_statement, importerLoop, hlast, check_dotted,
      everySecond_eq_enum]
  · rfl

/-- Witness for C7 at the concrete fragment `[Name "os"]`. -/
theorem c7_dotted_name_collection_witness :
    importer_from_error_statement [("dotted_name", [nmOs])] (1, 9) =
      some ⟨some [nmOs], 0, true, false⟩ := by
  have h := c7_dotted_name_collection.1 [nmOs] (1, 9) nmOs rfl
  exact h.trans (by rfl)

/-- C8 fails on the code: on `from a.b` with the cursor at `(1, 7)`,
exactly where the nested name `b` starts, the top-level scan stops at
children starting at or after the cursor, but `check_dotted` keeps
nested names with `start_pos <= pos`, so `b` — a name starting at (not
before) the cursor — is collected. -/
theorem c8_nested_name_at_cursor_counterexample :
    importer_from_error_statement nestedDotStack (1, 7) =
      some ⟨some [nmA, nmB], 0, true, false⟩
    ∧ ple (1, 7) nmB.start = true :=
  ⟨rfl, rfl⟩

/-- C8 (amended): the `import_from` scan depends only on the children
that start strictly before the cursor (it stops at the first child whose
start position is at or after the cursor), and every collected name —
top-level or nested inside a `dotted_name` child — starts at or before
the cursor (`<=`, so a nested name starting exactly at the cursor is
collected). -/
theorem c8_scan_prefix_amended (pos : Pos) (nodes : List PNode) :
    scanImportFrom pos nodes =
      scanImportFrom pos (nodes.takeWhile (fun n => !(ple pos n.start)))
    ∧ (scanImportFrom pos nodes).1.all (fun n => ple n.start pos) = true := by
  constructor
  · induction nodes with
    | nil => rfl
    | cons n rest ih =>
      by_cases hb : ple pos n.start
      · simp [scanImportFrom, hb]
      · simp only [List.takeWhile_cons, hb, Bool.not_false]
        simp [scanImportFrom, hb, ih]
  · induction nodes with
    | nil => rfl
    | cons n rest ih =>
      by_cases hb : ple pos n.start
      · simp [scanImportFrom, hb]
      · have hnp : ple n.start pos = true :=
          ple_of_not_ple (by simpa using hb)
        by_cases h1 : n.isDottedNameNode
        · simp [scanImportFrom, hb, h1, List.all_append, ih, check_dotted,
            all_of_filter_self]
        · by_cases h2 : (n.strEq "." || n.strEq "...") = true
          · simp [scanImportFrom, hb, h1, h2, ih]
          · by_cases h3 : n.isName
            · simp [scanImportFrom, hb, h1, h2, h3, ih, hnp]
            · by_cases h4 : n.strEq "import"
              · simp [scanImportFrom, hb, h1, h2, h3, h4, ih]
              · simp [scanImportFrom, hb, h1, h2, h3, h4, ih]

/-- The loop underlying C9: as soon as the stack contains an
`import_name` entry whose first child's span contains the cursor, the
loop returns the not-applicable tuple `(None, 0, False, False)`,
whatever was accumulated before and whatever follows; entries before it
must have non-empty children (empty children would make Python raise
`IndexError` first). -/
lemma importerLoop_import_name_short_circuit :
    ∀ (pre : List (String × List PNode)) (pos : Pos)
      (nodes : List PNode) (rest : List (String × List PNode)) (first : PNode)
      (names : List PNode) (level : Nat) (om ud : Bool),
      (∀ p ∈ pre, p.2 ≠ ([] : List PNode)) →
      nodes.head? = some first →
      (ple first.start pos && ple pos first.stop) = true →
      importerLoop pos names level om ud
          (pre ++ ("import_name", nodes) :: rest) =
        some ⟨none, 0, false, false⟩ := by
  intro pre
  induction pre with
  | nil =>
    intro pos nodes rest first names level om ud _ hhead hspan
    cases nodes with
    | nil => simp at hhead
    | cons n0 ns =>
      simp only [List.head?_cons, Option.some.injEq] at hhead
      subst hhead
      simp [importerLoop, hspan]
  | cons p pre ih =>
    intro pos nodes rest first names level om ud hpre hhead hspan
    obtain ⟨typ, children⟩ := p
    have hch : children ≠ [] := hpre (typ, children) (List.mem_cons_self _ _)
    have hpre2 : ∀ q ∈ pre, q.2 ≠ ([] : List PNode) :=
      fun q hq => hpre q (List.mem_cons_of_mem _ hq)
    by_cases h1 : typ = "dotted_name"
    · cases hgl : children.getLast? with
      | none => exact absurd (List.getLast?_eq_none_iff.mp hgl) hch
      | some lastc =>
        simp only [List.cons_append, importerLoop, h1, if_pos, hgl]
        exact ih pos nodes rest first _ _ _ _ hpre2 hhead hspan
    · by_cases h2 : typ = "import_name"
      · cases children with
        | nil => exact absurd rfl hch
        | cons c0 cs =>
          by_cases h3 : (ple c0.start pos && ple pos c0.stop) = true
          · simp [importerLoop, h1, h2, h3]
          · have h3f : (ple c0.start pos && ple pos c0.stop) = false := by
              simpa using h3
            subst h2
            simp only [List.cons_append]
            rw [importerLoop]
            simp only [h3f, Bool.false_eq_true, if_false, List.head?_cons,
              reduceIte, reduceCtorEq]
            simp only [String.reduceEq, if_false, ite_false]
            exact ih pos nodes rest first _ _ _ _ hpre2 hhead hspan
      · by_cases h4 : typ = "import_from"
        · simp only [List.cons_append, importerLoop, h1, h2, h4, if_neg, if_pos,
            Bool.false_eq_true]
          exact ih pos nodes rest first _ _ _ _ hpre2 hhead hspan
        · simp only [List.cons_append, importerLoop, h1, h2, h4, if_neg,
            Bool.false_eq_true]
          exact ih pos nodes rest first _ _ _ _ hpre2 hhead hspan

/-- C9: whenever the error statement's stack contains an `import_name`
fragment whose first child's span contains the cursor position, the
resolver short-circuits to the not-applicable result
`(None, 0, False, False)`, regardless of the other fragments (which
must carry non-empty children, as Python would otherwise crash on an
index error before reaching the fragment). -/
theorem c9_import_keyword_short_circuit
    (stack : List (String × List PNode)) (pos : Pos)
    (pre : List (String × List PNode)) (nodes : List PNode)
    (rest : List (String × List PNode)) (first : PNode)
    (hstack : stack = pre ++ ("import_name", nodes) :: rest)
    (hpre : ∀ p ∈ pre, p.2 ≠ ([] : List PNode))
    (hhead : nodes.head? = some first)
    (hspan : (ple first.start pos && ple pos first.stop) = true) :
    importer_from_error_statement stack pos = some ⟨none, 0, false, false⟩ := by
  subst hstack
  exact importerLoop_import_name_short_circuit pre pos nodes rest first [] 0
    true false hpre hhead hspan

/-- Witness for C9: the statement `import` with the cursor inside the
keyword. -/
theorem c9_import_keyword_short_circuit_witness :
    importer_from_error_statement [("import_name", [kwImport])] (1, 3) =
      some ⟨none, 0, false, false⟩ :=
  c9_import_keyword_short_circuit [("import_name", [kwImport])] (1, 3) []
    [kwImport] [] kwImport rfl (by simp) rfl (by decide)

/-- C4 fails on the code: for the source `"\tx"` with statement start
`(1, 0)` and cursor `(1, 2)` the slice is `"\tx"`, whose
trailing-stripped form is `"\tx"` itself (and it is not a lone `";"`),
yet the snippet actually computed is `"x"` — `strip('\t ')` removes the
leading tab as well. -/
theorem c4_leading_tab_counterexample :
    _get_code "\tx" (1, 0) (1, 2) = some "\tx"
    ∧ computeCode "\tx" (1, 0) (1, 2) = some "x"
    ∧ ("x" : String) ≠ (if ("\tx" : String) = ";" then "" else rstripTS "\tx") := by
  refine ⟨rfl, rfl, ?_⟩
  decide

/-- C4 (amended): the snippet is the slice from the statement start to
the cursor with tab/space characters stripped from *both* ends, an
exact `";"` slice (before stripping) becoming empty; in particular for
slices without leading tabs/spaces the snippet is the trailing-stripped
slice, with a lone `";"` slice becoming empty, as claimed. -/
theorem c4_snippet_amended (source : String) (sp pos : Pos) (code : String)
    (hslice : _get_code source sp pos = some code)
    (hlead : lstripTS code = code) :
    computeCode source sp pos = some (if code = ";" then "" else rstripTS code) := by
  unfold computeCode
  rw [hslice]
  simp only [Option.map_some', Option.some.injEq, snippetOfSlice]
  by_cases h : code = ";"
  · simp [h, stripTS, lstripTS, rstripTS]
  · simp only [h, if_neg, ite_false, if_false]
    rw [stripTS, hlead]

/-- Witness for C4 (amended) at the source `"x"`, statement start
`(1, 0)`, cursor `(1, 1)`. -/
theorem c4_snippet_amended_witness :
    computeCode "x" (1, 0) (1, 1) = some "x" := by
  have h := c4_snippet_amended "x" (1, 0) (1, 1) "x" rfl rfl
  rw [h]
  decide

/-- The loop `addResultsList` only propagates results of its element calls: it
cannot itself produce a non-`ok` result its element calls never
produce. -/
lemma addResultsList_avoid (rec : CompState → Nat → CRes) (bad : CRes)
    (hok : ∀ st : CompState, CRes.ok st ≠ bad) :
    ∀ (ls : List Nat), (∀ (st : CompState) (li : Nat), li ∈ ls → rec st li ≠ bad) →
      ∀ st : CompState, addResultsList rec st ls ≠ bad := by
  intro ls
  induction ls with
  | nil => intro _ st; simpa [addResultsList] using hok st
  | cons a as iha =>
    intro hrec st
    simp only [addResultsList]
    cases ha : rec st a with
    | ok st2 =>
      exact iha (fun st3 li hm => hrec st3 li (List.mem_cons_of_mem _ hm)) st2
    | err m => exact fun h => hrec st a (List.mem_cons_self _ _) (ha.trans h)
    | timeout => exact fun h => hrec st a (List.mem_cons_self _ _) (ha.trans h)

/-- The loop `scanArcs` only propagates results of `below` and `addR`. -/
lemma scanArcs_avoid (below : CompState → CRes) (addR : CompState → Nat → CRes)
    (bad : CRes) (hok : ∀ st : CompState, CRes.ok st ≠ bad)
    (hbelow : ∀ st : CompState, below st ≠ bad)
    (haddR : ∀ (st : CompState) (li : Nat), addR st li ≠ bad) :
    ∀ (arcs : List (Nat × Nat)) (st : CompState),
      scanArcs below addR st arcs ≠ bad := by
  intro arcs
  induction arcs with
  | nil => intro st; simpa [scanArcs] using hok st
  | cons a as iha =>
    intro st
    obtain ⟨l, ns⟩ := a
    simp only [scanArcs]
    by_cases hl : l = 0
    · simp only [if_pos hl]
      cases hb : below st with
      | ok st2 => exact iha st2
      | err m => exact fun h => hbelow st (hb.trans h)
      | timeout => exact fun h => hbelow st (hb.trans h)
    · simp only [if_neg hl]
      cases ha : addR st l with
      | ok st2 => exact iha st2
      | err m => exact fun h => haddR st l (ha.trans h)
      | timeout => exact fun h => haddR st l (ha.trans h)

/-- When no arc is labelled 0, `scanArcs` never consults `below`, so it
only propagates results of `addR`. -/
lemma scanArcs_avoid_nonzero (below : CompState → CRes)
    (addR : CompState → Nat → CRes) (bad : CRes)
    (hok : ∀ st : CompState, CRes.ok st ≠ bad)
    (haddR : ∀ (st : CompState) (li : Nat), addR st li ≠ bad) :
    ∀ (arcs : List (Nat × Nat)), (∀ a ∈ arcs, a.1 ≠ 0) →
      ∀ st : CompState, scanArcs below addR st arcs ≠ bad := by
  intro arcs
  induction arcs with
  | nil => intro _ st; simpa [scanArcs] using hok st
  | cons a as iha =>
    intro hnz st
    obtain ⟨l, ns⟩ := a
    have hl : l ≠ 0 := hnz (l, ns) (List.mem_cons_self _ _)
    simp only [scanArcs, if_neg hl]
    cases ha : addR st l with
    | ok st2 => exact iha (fun b hb => hnz b (List.mem_cons_of_mem _ hb)) st2
    | err m => exact fun h => haddR st l (ha.trans h)
    | timeout => exact fun h => haddR st l (ha.trans h)

/-- When the rank function strictly decreases along FIRST-set expansion
edges, `add_results` cannot exhaust fuel larger than the rank of the
label it starts from: the recursion depth is bounded. -/
lemma addResults_no_timeout (g : Grammar) (rank : Nat → Nat)
    (hr : RankOK g rank) :
    ∀ (fuel li : Nat) (st : CompState), rank li < fuel →
      addResults g fuel st li ≠ CRes.timeout := by
  intro fuel
  induction fuel with
  | zero => intro li st h; exact absurd h (by omega)
  | succ f ih =>
    intro li st h
    simp only [addResults]
    cases htok : lookupInv g.tokens li with
    | some tk => simp
    | none =>
      cases hkw : lookupInv g.keywords li with
      | some kw => simp
      | none =>
        cases hlab : g.labels[li]? with
        | none => simp
        | some tv =>
          obtain ⟨t, v⟩ := tv
          by_cases ht : t < 256
          · simp [ht]
          · simp only [if_neg ht]
            cases hdfa : lookupDfa g.dfas t with
            | none => simp
            | some d =>
              apply addResultsList_avoid (addResults g f) CRes.timeout
                (by intro st2 hx; exact CRes.noConfusion hx)
              intro st2 li2 hm
              have hlt := hr li t v d htok hkw hlab hdfa li2 hm
              exact ih li2 st2 (by omega)

/-- The scan `scan_stack` never exhausts the fuel when every label has rank
below it. -/
lemma scanStack_no_timeout (g : Grammar) (stack : List StackFrame)
    (fuel : Nat) (rank : Nat → Nat) (hr : RankOK g rank)
    (hf : ∀ li, rank li < fuel) :
    ∀ (idx : Nat) (st : CompState),
      scanStack g stack fuel idx st ≠ CRes.timeout := by
  have haddR : ∀ (st : CompState) (li : Nat),
      addResults g fuel st li ≠ CRes.timeout :=
    fun st li => addResults_no_timeout g rank hr fuel li st (hf li)
  have hok : ∀ st : CompState, CRes.ok st ≠ CRes.timeout :=
    fun st hx => CRes.noConfusion hx
  intro idx
  induction idx with
  | zero =>
    intro st
    simp only [scanStack, scanFrame]
    split
    · simp
    · split
      · simp
      · exact scanArcs_avoid _ _ CRes.timeout hok (by intro st2 h; simp at h)
          haddR _ st
  | succ i ihj =>
    intro st
    simp only [scanStack, scanFrame]
    split
    · simp
    · split
      · simp
      · exact scanArcs_avoid _ _ CRes.timeout hok ihj haddR _ st

/-- C1 (amended): for every grammar table whose
label→nonterminal→FIRST-label expansion admits a strictly decreasing
rank function (i.e. the table has no actual cyclic FIRST sets) and
every parse stack, the completion resolver terminates: the
fuel-instrumented model never runs out of fuel once the fuel exceeds
every rank.  The claim's further assertion — that a visited set keyed
on nonterminal id prevents expanding the same nonterminal twice — does
not hold of the code; see the counterexample theorem. -/
theorem c1_first_expansion_terminates (g : Grammar) (stack : List StackFrame)
    (fuel : Nat) (rank : Nat → Nat) (hr : RankOK g rank)
    (hf : ∀ li, rank li < fuel) :
    get_possible_completion_types g stack fuel ≠ CRes.timeout := by
  unfold get_possible_completion_types
  exact scanStack_no_timeout g stack fuel rank hr hf (stack.length - 1)
    ⟨[], [], []⟩

/-- C1 fails on the code as stated: on the acyclic table `gEx` (whose
FIRST expansion is a DAG: 256 → {257, 258} → 259) the resolver expands
nonterminal 259 twice within a single call, as the instrumented
`expanded` trace shows — `add_results` has no visited set. -/
theorem c1_revisits_nonterminal_counterexample :
    get_possible_completion_types gEx stackEx 10 =
      CRes.ok ⟨[], [1, 1], [256, 257, 259, 258, 259]⟩
    ∧ [256, 257, 259, 258, 259].count 259 = 2 := by
  exact ⟨rfl, by decide⟩

/-- Witness for C1 (amended): the concrete acyclic table `gEx` with the
rank function `rankEx` and fuel 10. -/
theorem c1_first_expansion_terminates_witness :
    RankOK gEx rankEx ∧ (∀ li, rankEx li < 10) ∧
      get_possible_completion_types gEx stackEx 10 ≠ CRes.timeout := by
  have hbound : ∀ li, rankEx li < 10 := by
    intro li
    unfold rankEx
    split_ifs <;> omega
  have hrank : RankOK gEx rankEx := by
    intro li t v d htok hkw hlab hdfa li2 hmem
    have hli : li < 6 := by
      by_contra hge
      push_neg at hge
      have hnone : gEx.labels[li]? = none := by
        apply List.getElem?_eq_none
        simpa [gEx] using hge
      rw [hnone] at hlab
      exact absurd hlab (by simp)
    interval_cases li
    · simp [gEx] at hlab hdfa
      obtain ⟨ht, hv⟩ := hlab
      subst ht
      simp [lookupDfa] at hdfa
    · simp [gEx] at hlab hdfa
      obtain ⟨ht, hv⟩ := hlab
      subst ht
      simp [lookupDfa] at hdfa
      subst hdfa
      simp at hmem
      rcases hmem with h | h <;> subst h <;> decide
    · simp [gEx] at hlab hdfa
      obtain ⟨ht, hv⟩ := hlab
      subst ht
      simp [lookupDfa] at hdfa
      subst hdfa
      simp at hmem
      subst hmem
      decide
    · simp [gEx] at hlab hdfa
      obtain ⟨ht, hv⟩ := hlab
      subst ht
      simp [lookupDfa] at hdfa
      subst hdfa
      simp at hmem
      subst hmem
      decide
    · simp [gEx, lookupInv] at htok
    · simp [gEx] at hlab hdfa
      obtain ⟨ht, hv⟩ := hlab
      subst ht
      simp [lookupDfa] at hdfa
      subst hdfa
      simp at hmem
      subst hmem
      decide
  exact ⟨hrank, hbound,
    c1_first_expansion_terminates gEx stackEx 10 rankEx hrank hbound⟩

/-- The expansion `add_results` never raises the scan loop's below-bottom
`IndexError`: its own errors are the label, assertion and dfas ones. -/
lemma addResults_ne_scan_bottom (g : Grammar) :
    ∀ (fuel : Nat) (st : CompState) (li : Nat),
      addResults g fuel st li ≠ CRes.err "IndexError: scan below stack bottom" := by
  intro fuel
  induction fuel with
  | zero =>
    intro st li
    simp only [addResults]
    split
    · simp
    · split
      · simp
      · simp
  | succ f ih =>
    intro st li
    simp only [addResults]
    split
    · simp
    · split
      · simp
      · split
        · simp
        · split
          · simp
          · split
            · simp
            · exact addResultsList_avoid (addResults g f) _
                (by intro st2 hx; simp at hx) _
                (fun st2 li2 _ => ih st2 li2) _

/-- When some frame at position `j` (or below the scan's start) is
non-accepting — its current state's arcs carry no label 0 — the
downward recursion of `scan_stack` stops there and the below-bottom
`IndexError` is never raised. -/
lemma scanStack_ne_bottom (g : Grammar) (stack : List StackFrame) (fuel : Nat)
    (j : Nat) (fr : StackFrame) (arcs : List (Nat × Nat))
    (hfr : stack[j]? = some fr)
    (harcs : fr.dfa.states[fr.state]? = some arcs)
    (hna : ∀ a ∈ arcs, a.1 ≠ 0) :
    ∀ (idx : Nat), j ≤ idx → ∀ st : CompState,
      scanStack g stack fuel idx st ≠
        CRes.err "IndexError: scan below stack bottom" := by
  have hok : ∀ st : CompState,
      CRes.ok st ≠ CRes.err "IndexError: scan below stack bottom" :=
    fun st hx => CRes.noConfusion hx
  have haddR : ∀ (st : CompState) (li : Nat),
      addResults g fuel st li ≠ CRes.err "IndexError: scan below stack bottom" :=
    fun st li => addResults_ne_scan_bottom g fuel st li
  intro idx
  induction idx with
  | zero =>
    intro hj st
    have hj0 : j = 0 := Nat.le_zero.mp hj
    subst hj0
    simp only [scanStack, scanFrame, hfr, harcs]
    exact scanArcs_avoid_nonzero _ _ _ hok haddR arcs hna st
  | succ i ihj =>
    intro hj st
    by_cases hji : j = i + 1
    · subst hji
      simp only [scanStack, scanFrame, hfr, harcs]
      exact scanArcs_avoid_nonzero _ _ _ hok haddR arcs hna st
    · have hji2 : j ≤ i := by omega
      simp only [scanStack, scanFrame]
      split
      · simp
      · split
        · simp
        · exact scanArcs_avoid _ _ _ hok (ihj hji2) haddR _ st

/-- C3 fails on the code as stated: on a one-frame stack whose only
frame is accepting (its state has an arc labelled 0), the frame-by-frame
recursion does not stop gracefully at the exhausted stack — it indexes
below the bottom frame and raises `IndexError`. -/
theorem c3_all_accepting_counterexample :
    get_possible_completion_types gEx stackAcc 10 =
      CRes.err "IndexError: scan below stack bottom" := by
  rfl

/-- C3 (amended): whenever some frame of the stack is non-accepting
(its current state has no arc with label index 0), the frame-by-frame
recursion stops at the topmost such frame at the latest and the
resolver never indexes below the bottom frame; only when every frame is
accepting does it step below the bottom and fail with `IndexError` (see
the counterexample theorem). -/
theorem c3_scan_stops_at_nonaccepting (g : Grammar) (stack : List StackFrame)
    (fuel : Nat) (j : Nat) (fr : StackFrame) (arcs : List (Nat × Nat))
    (hj : j < stack.length)
    (hfr : stack[j]? = some fr)
    (harcs : fr.dfa.states[fr.state]? = some arcs)
    (hna : ∀ a ∈ arcs, a.1 ≠ 0) :
    get_possible_completion_types g stack fuel ≠
      CRes.err "IndexError: scan below stack bottom" := by
  unfold get_possible_completion_types
  have hle : j ≤ stack.length - 1 := by omega
  exact scanStack_ne_bottom g stack fuel j fr arcs hfr harcs hna
    (stack.length - 1) hle ⟨[], [], []⟩

/-- Witness for C3 (amended): a two-frame stack whose top frame is
accepting but whose bottom frame is not. -/
theorem c3_scan_stops_at_nonaccepting_witness :
    get_possible_completion_types gEx stackStop 10 ≠
      CRes.err "IndexError: scan below stack bottom" :=
  c3_scan_stops_at_nonaccepting gEx stackStop 10 0 ⟨⟨[[(4, 0)]], []⟩, 0⟩
    [(4, 0)] (by decide) rfl rfl (by decide)

end Jedi
